import Mathlib

/-!
Verification of the text-masking renderer `bright.js`.

Strings are modelled as `List Char`.  Pixel quantities (widths, heights,
font sizes) are modelled as rationals; the host canvas text-measurement
capability (`ctx.measureText(...).width`) is an explicit function
parameter `measure : Str → ℚ`.  The JS whitespace class is modelled by
the common ASCII whitespace characters.
-/

namespace Bright

/-- Character strings, modelled as lists of characters. -/
abbrev Str := List Char

/-- Whitespace test used by the tokenizer and trimming, modelling the
JS `\s` class restricted to ASCII whitespace. -/
def isWs (c : Char) : Bool :=
  c = ' ' || c = '\t' || c = '\n' || c = '\r'

/-- Model of `String.prototype.trimStart`. -/
def trimStart (l : Str) : Str := l.dropWhile isWs

/-- Model of removing trailing whitespace. -/
def trimEnd (l : Str) : Str := (l.reverse.dropWhile isWs).reverse

/-- Model of `String.prototype.trim`. -/
def trim (l : Str) : Str := trimEnd (trimStart l)

/-- Splitting a string at every occurrence of a separator character,
as `String.prototype.split` does (so `""` splits to `[""]`). -/
def splitOnChar (sep : Char) : Str → List Str
  | [] => [[]]
  | c :: l =>
    if c = sep then [] :: splitOnChar sep l
    else
      match splitOnChar sep l with
      | [] => [[c]]
      | a :: as => (c :: a) :: as

/-- Removal of a single trailing carriage return, used to model the
`\r?` part of the newline-splitting regex `/\r?\n/`. -/
def stripCR (p : Str) : Str :=
  match p.reverse with
  | '\r' :: t => t.reverse
  | _ => p

/-- Model of `String.prototype.split(/\r?\n/)`: split at `\n`, where a
carriage return immediately before the `\n` is consumed as well. -/
def splitNewlines (l : Str) : List Str :=
  let ps := splitOnChar '\n' l
  ps.dropLast.map stripCR ++ [ps.getLastD []]

/-- Maximal runs of whitespace / non-whitespace characters, modelling
`String.prototype.split(/(\s+)/)` with the empty fragments dropped
(the source skips empty tokens with `if (!token) return`). -/
def runs : Str → List Str
  | [] => []
  | c :: l =>
    match runs l with
    | [] => [[c]]
    | [] :: rs => [c] :: rs
    | (d :: t) :: rs =>
      if isWs c = isWs d then (c :: d :: t) :: rs else [c] :: (d :: t) :: rs

/-- Token list of a raw line in `wrapLines`: word/whitespace runs when
the line contains whitespace, individual characters otherwise
(`Array.from(rawLine)`). -/
def tokensOf (seg : Str) : List Str :=
  if seg.any isWs then runs seg else seg.map (fun c => [c])

/-- Model of `Math.max` on two rationals, written as an explicit
conditional so that it evaluates on concrete inputs. -/
def maxQ (a b : ℚ) : ℚ := if a ≤ b then b else a

/-- Font metrics record, modelling the object produced by `getMetrics`.
A `0` in `lineHeight` or `height` models a falsy (unset) value for the
`||` fallbacks in the source. -/
structure Metrics where
  fontFamily : Str
  fontSize : ℚ
  fontWeight : Str
  lineHeight : ℚ
  width : ℚ
  height : ℚ
deriving DecidableEq

/-- One step of the greedy token accumulation loop inside
`wrapLines`: state is (committed lines, current line buffer). -/
def stepTok (measure : Str → ℚ) (maxW : ℚ) (acc : List Str × Str) (t : Str) :
    List Str × Str :=
  if t = [] then acc
  else if maxW < measure (acc.2 ++ t) ∧ trim acc.2 ≠ [] then
    (acc.1 ++ [acc.2], trimStart t)
  else (acc.1, acc.2 ++ t)

/-- Committed lines together with the final buffer produced by folding
the greedy accumulation step over a token list from a given state; the
final buffer is always pushed, as in the source (`result.push(current)`). -/
def runTokens (measure : Str → ℚ) (maxW : ℚ) (st : List Str × Str)
    (ts : List Str) : List Str :=
  let r := ts.foldl (stepTok measure maxW) st
  r.1 ++ [r.2]

/-- Wrapping of a single newline-free segment, modelling the body of
the `rawLines.forEach` loop in `wrapLines`: an empty segment pushes a
single empty line, otherwise tokens are greedily accumulated and the
final buffer is pushed. -/
def wrapSegment (measure : Str → ℚ) (maxW : ℚ) (seg : Str) : List Str :=
  if seg = [] then [[]]
  else runTokens measure maxW ([], []) (tokensOf seg)

/-- Model of `wrapLines(text, metrics)` from the source: split on
newlines, wrap each segment against `maxWidth = max(width - 4, 1)`,
and filter with `line => line.length || rawLines.includes('')`. -/
def wrapLines (measure : Str → ℚ) (text : Str) (metrics : Metrics) : List Str :=
  let rawLines := splitNewlines text
  let maxW := maxQ (metrics.width - 4) 1
  let result := (rawLines.map (wrapSegment measure maxW)).flatten
  result.filter (fun line => !line.isEmpty || rawLines.contains [])

/-- Replacement of every occurrence of a character by a string,
modelling `String.prototype.replace(/c/g, rep)`. -/
def replaceChar (c : Char) (rep : Str) (l : Str) : Str :=
  (l.map (fun d => if d = c then rep else [d])).flatten

/-- Model of `escapeXml` from the source: the five sequential global
replacements, applied in the source's order (`&` first). -/
def escapeXml (l : Str) : Str :=
  replaceChar (Char.ofNat 39) "&#39;".toList
    (replaceChar (Char.ofNat 34) "&quot;".toList
      (replaceChar '>' "&gt;".toList
        (replaceChar '<' "&lt;".toList
          (replaceChar '&' "&amp;".toList l))))

/-- Specification-side character-wise escaping map: each of the five
markup-significant characters is sent to its entity, all others are
kept. -/
def escChar (c : Char) : Str :=
  if c = '&' then "&amp;".toList
  else if c = '<' then "&lt;".toList
  else if c = '>' then "&gt;".toList
  else if c = Char.ofNat 34 then "&quot;".toList
  else if c = Char.ofNat 39 then "&#39;".toList
  else [c]

/-- The five escape entities produced by `escapeXml`. -/
def xmlEntities : List Str :=
  ["&amp;".toList, "&lt;".toList, "&gt;".toList, "&quot;".toList, "&#39;".toList]

/-- Resolved line height used by `buildMask`:
`metrics.lineHeight || metrics.fontSize * 1.4`. -/
def resolvedLineHeight (m : Metrics) : ℚ :=
  if m.lineHeight = 0 then m.fontSize * (7 / 5) else m.lineHeight

/-- One positioned text run of the mask image (a `tspan` element). -/
structure Tspan where
  x : ℚ
  y : ℚ
  content : Str
deriving DecidableEq

/-- Mask image artifact produced by `buildMask`, modelled structurally
(the serialization of the markup document into a percent-encoded data
URL is not modelled; the geometry and embedded line content are). -/
structure MaskImage where
  width : ℚ
  height : ℚ
  startY : ℚ
  tspans : List Tspan
deriving DecidableEq

/-- Model of `buildMask(lines, metrics)` from the source. -/
def buildMask (lines : List Str) (metrics : Metrics) : MaskImage :=
  let width := maxQ metrics.width 1
  let lineHeight := resolvedLineHeight metrics
  let height :=
    if metrics.height = 0 then maxQ (lineHeight * lines.length) lineHeight
    else metrics.height
  let startY := maxQ ((height - lineHeight * ((lines.length : ℚ) - 1)) / 2)
    (lineHeight * (3 / 5))
  { width := width
    height := height
    startY := startY
    tspans := lines.enum.map
      (fun p => { x := width / 2, y := startY + p.1 * lineHeight,
                  content := escapeXml p.2 }) }

/-- Explicit text supplied through `options.textLines`: the source
accepts a string or an array of strings. -/
inductive TextSource where
  | str : Str → TextSource
  | list : List Str → TextSource
deriving DecidableEq

/-- Model of `String.prototype.split(/\r?\n|\|/)` used by
`normalizeLines` on string input: split at pipes and newlines. -/
def splitDelims (l : Str) : List Str :=
  ((splitOnChar '|' l).map splitNewlines).flatten

/-- Model of `normalizeLines(source)`: `none` and the empty string are
falsy and give `[]`; arrays are trimmed element-wise; strings are split
at newlines and pipes and trimmed; empty results are dropped. -/
def normalizeLines (source : Option TextSource) : List Str :=
  match source with
  | none => []
  | some (.list L) => (L.map trim).filter (fun l => !l.isEmpty)
  | some (.str s) =>
    if s = [] then []
    else ((splitDelims s).map trim).filter (fun l => !l.isEmpty)

/-- Filter applied to every character of a string keeping the
non-whitespace ones; used to state the no-character-loss property. -/
def nws (l : Str) : Str := l.filter (fun c => !isWs c)

/-- DOM element state relevant to the renderer: the optional
`data-bright-text` attribute, the text content, and the mask-related
style properties (absent until `apply` sets them). -/
structure ElemStyle where
  mask : MaskImage
  webkitMask : MaskImage
  maskSizeW : ℚ
  maskSizeH : ℚ
  webkitMaskSizeW : ℚ
  webkitMaskSizeH : ℚ
  maskRepeat : Str
  webkitMaskRepeat : Str
  maskPosition : Str
  webkitMaskPosition : Str
deriving DecidableEq

/-- A DOM element, reduced to the state `bright.js` reads and writes. -/
structure Elem where
  brightText : Option Str
  textContent : Str
  style : Option ElemStyle
deriving DecidableEq

/-- The document, as a finite association of element identifiers to
elements (`document.getElementById`). -/
abbrev Dom := List (Str × Elem)

/-- Lookup of an element by identifier. -/
def lookupElem : Dom → Str → Option Elem
  | [], _ => none
  | (k, e) :: rest, id => if k = id then some e else lookupElem rest id

/-- Replacement of the element stored under an identifier. -/
def setElem (dom : Dom) (id : Str) (e : Elem) : Dom :=
  dom.map (fun p => if p.1 = id then (id, e) else p)

/-- Host environment capabilities consumed by `apply`: the canvas text
measurer and the computed-style metrics of an element
(`getComputedStyle` and `getBoundingClientRect`). -/
structure Env where
  measure : Str → ℚ
  metricsFor : Elem → Metrics

/-- Options accepted by `apply`. -/
structure Options where
  containerId : Option Str := none
  contentId : Option Str := none
  textLines : Option TextSource := none

/-- Model of `options.x || defaultValue` for string options: absent and
empty-string values are falsy. -/
def resolveId (o : Option Str) (dflt : Str) : Str :=
  match o with
  | some s => if s = [] then dflt else s
  | none => dflt

/-- Default container element identifier. -/
def defaultContainerId : Str := "bright-container".toList

/-- Default content element identifier. -/
def defaultContentId : Str := "bright-content".toList

/-- Warning logged when the container or content element is missing. -/
def warnNotFound : Str := "[BrightMode] container or content not found".toList

/-- Warning logged when no source text is available. -/
def warnNoText : Str := "[BrightMode] no text provided".toList

/-- Truthiness coercion for an optional string attribute: an absent or
empty value is falsy. -/
def nonEmptyOpt (o : Option Str) : Option Str :=
  match o with
  | some t => if t = [] then none else some t
  | none => none

/-- Source text lookup order of `apply`: the content element's
`data-bright-text`, else the container's, else the content element's
own text content. -/
def sourceTextFor (container content : Elem) : Str :=
  match nonEmptyOpt content.brightText with
  | some t => t
  | none =>
    match nonEmptyOpt container.brightText with
    | some t => t
    | none => content.textContent

/-- Height override used for the mask build in `apply`:
`metrics.height || metrics.lineHeight * lines.length + metrics.lineHeight`. -/
def maskHeightFix (metrics : Metrics) (n : ℕ) : Metrics :=
  { metrics with
    height :=
      if metrics.height = 0 then metrics.lineHeight * n + metrics.lineHeight
      else metrics.height }

/-- Style mutation performed at the end of `apply`: both standard and
vendor-prefixed mask properties are set from the built image. -/
def applyMaskStyle (content : Elem) (mask : MaskImage) : Elem :=
  { content with
    style := some
      { mask := mask
        webkitMask := mask
        maskSizeW := mask.width
        maskSizeH := mask.height
        webkitMaskSizeW := mask.width
        webkitMaskSizeH := mask.height
        maskRepeat := "no-repeat".toList
        webkitMaskRepeat := "no-repeat".toList
        maskPosition := "center".toList
        webkitMaskPosition := "center".toList } }

/-- Model of `apply(options)`: resolves the two elements, determines
the source lines (explicit `textLines`, or wrapped text from the data
attributes / text content), writes the joined lines back into the
content element, and installs the mask style.  The returned list holds
the warnings logged by the call. -/
def apply (env : Env) (opts : Options) (dom : Dom) : Dom × List Str :=
  let containerId := resolveId opts.containerId defaultContainerId
  let contentId := resolveId opts.contentId defaultContentId
  match lookupElem dom containerId, lookupElem dom contentId with
  | some container, some content =>
    let manualLines := normalizeLines opts.textLines
    if manualLines.isEmpty then
      let sourceText := trim (sourceTextFor container content)
      if sourceText = [] then (dom, [warnNoText])
      else
        let metrics := env.metricsFor content
        let lines := wrapLines env.measure sourceText metrics
        let content1 := { content with textContent := List.intercalate ['\n'] lines }
        let dom1 := setElem dom contentId content1
        let metrics1 := env.metricsFor content1
        let mask := buildMask lines (maskHeightFix metrics1 lines.length)
        (setElem dom1 contentId (applyMaskStyle content1 mask), [])
    else
      let content1 := { content with textContent := List.intercalate ['\n'] manualLines }
      let dom1 := setElem dom contentId content1
      let metrics1 := env.metricsFor content1
      let mask := buildMask manualLines (maskHeightFix metrics1 manualLines.length)
      (setElem dom1 contentId (applyMaskStyle content1 mask), [])
  | _, _ => (dom, [warnNotFound])

/-- Character-count measure, a simple concrete instantiation of the
host text measurer used for witnesses and counterexamples. -/
def lenQ : Str → ℚ := fun s => (s.length : ℚ)

/-- Concrete metrics with container width 5 (so `maxWidth = 1`). -/
def metricsW5 : Metrics := ⟨[], 16, [], 20, 5, 0⟩

/-- Concrete metrics with container width 6 (so `maxWidth = 2`). -/
def metricsW6 : Metrics := ⟨[], 16, [], 20, 6, 0⟩

/-- Concrete metrics with container width 9 (so `maxWidth = 5`). -/
def metricsW9 : Metrics := ⟨[], 16, [], 20, 9, 0⟩

/-- Concrete metrics with a wide container. -/
def metricsW300 : Metrics := ⟨[], 16, [], 20, 300, 0⟩

/-- Constant metrics environment used in concrete `apply` scenarios. -/
def envLen : Env := ⟨lenQ, fun _ => metricsW300⟩

/-- Environment whose measurer reports zero width for everything. -/
def envZero : Env := ⟨fun _ => 0, fun _ => metricsW300⟩

/-- A fresh element with no data attribute, no text and no style. -/
def blankElem : Elem := ⟨none, [], none⟩

/-- Document holding the two default elements in their initial state. -/
def domDefault : Dom :=
  [(defaultContainerId, blankElem), (defaultContentId, blankElem)]

/-- Options for the explicit two-line scenario. -/
def optsTwoLines : Options :=
  { textLines := some (.list ["Line one".toList, "Line two".toList]) }

/-- Statement that every ampersand in a string starts one of the five
escape entities. -/
def ampSafe (L : Str) : Prop :=
  ∀ i (h : i < L.length), L.get ⟨i, h⟩ = '&' →
    ∃ e ∈ xmlEntities, e <+: L.drop i

section
attribute [local semireducible] Rat.sub Rat.add Rat.mul Rat.inv

/-! ### Whitespace and trimming lemmas -/

theorem nws_append (a b : Str) : nws (a ++ b) = nws a ++ nws b := by
  simp [nws]

theorem nws_nil_of_ws {l : Str} (h : ∀ c ∈ l, isWs c = true) : nws l = [] := by
  induction l with
  | nil => rfl
  | cons c t ih =>
    have hc : isWs c = true := h c (List.mem_cons_self _ _)
    have ht := ih fun d hd => h d (List.mem_cons_of_mem _ hd)
    simp [nws, List.filter_cons, hc] at ht ⊢
    exact ht

theorem nws_trimStart (l : Str) : nws (trimStart l) = nws l := by
  conv_rhs => rw [← List.takeWhile_append_dropWhile isWs l]
  rw [nws_append, nws_nil_of_ws fun c hc => List.mem_takeWhile_imp hc]
  rfl

theorem nws_stripCR (p : Str) : nws (stripCR p) = nws p := by
  unfold stripCR
  split
  · next t h =>
    have hp : p = t.reverse ++ ['\r'] := by
      have := congrArg List.reverse h
      simpa using this
    rw [hp, nws_append]
    simp [nws, isWs]
  · rfl

theorem trimEnd_eq_nil {l : Str} (h : trimEnd l = []) : ∀ c ∈ l, isWs c = true := by
  unfold trimEnd at h
  rw [List.reverse_eq_nil_iff, List.dropWhile_eq_nil_iff] at h
  intro c hc
  exact h c (List.mem_reverse.mpr hc)

theorem trim_eq_nil {l : Str} (h : trim l = []) : ∀ c ∈ l, isWs c = true := by
  unfold trim at h
  have h2 := trimEnd_eq_nil h
  intro c hc
  conv at hc => rw [← List.takeWhile_append_dropWhile isWs l]
  rcases List.mem_append.mp hc with h3 | h3
  · exact List.mem_takeWhile_imp h3
  · exact h2 c h3

theorem trim_ne_nil {l : Str} {c : Char} (hc : c ∈ l) (hw : isWs c = false) :
    trim l ≠ [] := by
  intro h
  rw [trim_eq_nil h c hc] at hw
  simp at hw

theorem trimStart_of_noWs {t : Str} (h : ∀ c ∈ t, isWs c = false) :
    trimStart t = t := by
  cases t with
  | nil => rfl
  | cons c l =>
    have hc : isWs c = false := h c (List.mem_cons_self _ _)
    unfold trimStart
    rw [List.dropWhile_cons_of_neg (by simp [hc])]

theorem trimEnd_of_noWs {t : Str} (h : ∀ c ∈ t, isWs c = false) :
    trimEnd t = t := by
  unfold trimEnd
  rcases hr : t.reverse with _ | ⟨c, l⟩
  · simpa using congrArg List.reverse hr
  · have hmem : c ∈ t := by
      rw [← List.mem_reverse, hr]; exact List.mem_cons_self _ _
    rw [List.dropWhile_cons_of_neg (by simp [h c hmem]), ← hr,
      List.reverse_reverse]

theorem trim_of_noWs {t : Str} (h : ∀ c ∈ t, isWs c = false) : trim t = t := by
  unfold trim
  rw [trimStart_of_noWs h, trimEnd_of_noWs h]

theorem dropWhile_head_false {p : Char → Bool} {l r : Str} {c : Char}
    (h : l.dropWhile p = c :: r) : p c = false := by
  induction l with
  | nil => simp at h
  | cons a t ih =>
    by_cases hp : p a
    · rw [List.dropWhile_cons_of_pos hp] at h
      exact ih h
    · rw [List.dropWhile_cons_of_neg hp] at h
      cases h
      simpa using hp

theorem trimStart_trimStart (l : Str) : trimStart (trimStart l) = trimStart l :=
  List.dropWhile_idempotent isWs l

theorem trimEnd_trimEnd (l : Str) : trimEnd (trimEnd l) = trimEnd l := by
  unfold trimEnd
  rw [List.reverse_reverse, List.dropWhile_idempotent]

theorem trimEnd_isPrefixOfSelf (l : Str) : trimEnd l <+: l := by
  have h : l.reverse.dropWhile isWs <:+ l.reverse := List.dropWhile_suffix _
  have := List.reverse_prefix.mpr h
  rwa [List.reverse_reverse] at this

theorem trimStart_trim (l : Str) : trimStart (trim l) = trim l := by
  unfold trim
  rcases hz : trimEnd (trimStart l) with _ | ⟨c, t⟩
  · rfl
  · obtain ⟨s, hs⟩ := trimEnd_isPrefixOfSelf (trimStart l)
    rw [hz] at hs
    have hs' : List.dropWhile isWs l = c :: (t ++ s) := by
      have : trimStart l = c :: (t ++ s) := by
        rw [← hs]; simp
      simpa [trimStart] using this
    have hc : isWs c = false := dropWhile_head_false hs'
    unfold trimStart
    rw [List.dropWhile_cons_of_neg (by simp [hc])]

theorem trim_trim (l : Str) : trim (trim l) = trim l := by
  show trimEnd (trimStart (trim l)) = trim l
  rw [trimStart_trim]
  show trimEnd (trimEnd (trimStart l)) = trim l
  rw [trimEnd_trimEnd]
  rfl

/-! ### Splitting lemmas -/

theorem splitOnChar_ne_nil (sep : Char) (l : Str) : splitOnChar sep l ≠ [] := by
  cases l with
  | nil => simp [splitOnChar]
  | cons c t =>
    unfold splitOnChar
    split
    · simp
    · split <;> simp

theorem nws_flatten_splitOnChar (l : Str) :
    ((splitOnChar '\n' l).map nws).flatten = nws l := by
  induction l with
  | nil => rfl
  | cons c t ih =>
    unfold splitOnChar
    by_cases hc : c = '\n'
    · subst hc
      rw [if_pos rfl]
      calc (List.map nws ([] :: splitOnChar '\n' t)).flatten
          = nws t := by simp [ih, nws]
        _ = nws ('\n' :: t) := by simp [nws, List.filter_cons, isWs]
    · rw [if_neg hc]
      rcases hs : splitOnChar '\n' t with _ | ⟨a, as⟩
      · exact absurd hs (splitOnChar_ne_nil _ _)
      · rw [hs] at ih
        simp only [List.map_cons, List.flatten_cons] at ih ⊢
        by_cases hw : isWs c
        · have h1 : nws (c :: a) = nws a := by simp [nws, List.filter_cons, hw]
          have h2 : nws (c :: t) = nws t := by simp [nws, List.filter_cons, hw]
          rw [h1, h2, ih]
        · have h1 : nws (c :: a) = c :: nws a := by
            simp [nws, List.filter_cons, hw]
          have h2 : nws (c :: t) = c :: nws t := by
            simp [nws, List.filter_cons, hw]
          rw [h1, h2, ← ih]
          rfl

theorem nws_splitNewlines (l : Str) :
    ((splitNewlines l).map nws).flatten = nws l := by
  show ((((splitOnChar '\n' l).dropLast.map stripCR)
    ++ [(splitOnChar '\n' l).getLastD []]).map nws).flatten = nws l
  have hne := splitOnChar_ne_nil '\n' l
  have hsplit := List.dropLast_append_getLast hne
  have hlast : (splitOnChar '\n' l).getLastD [] = (splitOnChar '\n' l).getLast hne := by
    rw [List.getLastD_eq_getLast?, List.getLast?_eq_getLast _ hne]
    rfl
  rw [hlast]
  have hmap : ((splitOnChar '\n' l).dropLast.map stripCR).map nws
      = (splitOnChar '\n' l).dropLast.map nws := by
    rw [List.map_map]
    exact List.map_congr_left fun p _ => nws_stripCR p
  calc (((splitOnChar '\n' l).dropLast.map stripCR
          ++ [(splitOnChar '\n' l).getLast hne]).map nws).flatten
      = (((splitOnChar '\n' l).dropLast.map nws
          ++ [nws ((splitOnChar '\n' l).getLast hne)]).flatten) := by
        rw [List.map_append, hmap]; rfl
    _ = (((splitOnChar '\n' l).dropLast ++ [(splitOnChar '\n' l).getLast hne]).map nws).flatten := by
        rw [List.map_append]; rfl
    _ = nws l := by rw [hsplit, nws_flatten_splitOnChar]

theorem splitOnChar_of_not_mem {sep : Char} {l : Str} (h : sep ∉ l) :
    splitOnChar sep l = [l] := by
  induction l with
  | nil => rfl
  | cons c t ih =>
    unfold splitOnChar
    rw [if_neg (by rintro rfl; exact h (List.mem_cons_self _ _)),
      ih (fun hm => h (List.mem_cons_of_mem _ hm))]

theorem splitNewlines_of_no_nl {l : Str} (h : '\n' ∉ l) :
    splitNewlines l = [l] := by
  unfold splitNewlines
  rw [splitOnChar_of_not_mem h]
  rfl

/-! ### Token lemmas -/

theorem runs_flatten (l : Str) : (runs l).flatten = l := by
  induction l with
  | nil => rfl
  | cons c t ih =>
    unfold runs
    rcases hr : runs t with _ | ⟨r, rs⟩
    · rw [hr] at ih
      simp at ih
      simp [ih]
    · rw [hr] at ih
      cases r with
      | nil =>
        show ([c] :: rs).flatten = c :: t
        simp at ih ⊢
        exact ih
      | cons d t2 =>
        show (if isWs c = isWs d then (c :: d :: t2) :: rs
          else [c] :: (d :: t2) :: rs).flatten = c :: t
        by_cases hw : isWs c = isWs d
        · rw [if_pos hw]
          simp at ih ⊢
          exact ih
        · rw [if_neg hw]
          simp at ih ⊢
          exact ih

theorem mapSingleton_flatten (l : Str) : (l.map (fun c => [c])).flatten = l := by
  induction l with
  | nil => rfl
  | cons c t ih => simp [ih]

theorem tokensOf_flatten (seg : Str) : (tokensOf seg).flatten = seg := by
  unfold tokensOf
  split
  · exact runs_flatten seg
  · exact mapSingleton_flatten seg

theorem tokensOf_nil : tokensOf [] = [] := rfl

/-! ### Greedy fold lemmas -/

theorem runTokens_nil (measure : Str → ℚ) (W : ℚ) (st : List Str × Str) :
    runTokens measure W st [] = st.1 ++ [st.2] := rfl

theorem runTokens_cons (measure : Str → ℚ) (W : ℚ) (st : List Str × Str)
    (t : Str) (ts : List Str) :
    runTokens measure W st (t :: ts) =
      runTokens measure W (stepTok measure W st t) ts := rfl

theorem stepTok_fst_mem {measure : Str → ℚ} {W : ℚ} {st : List Str × Str}
    {t x : Str} (hx : x ∈ st.1) : x ∈ (stepTok measure W st t).1 := by
  unfold stepTok
  split
  · exact hx
  · split
    · exact List.mem_append_left _ hx
    · exact hx

theorem mem_runTokens_of_mem_fst {measure : Str → ℚ} {W : ℚ} {x : Str} :
    ∀ (ts : List Str) (st : List Str × Str), x ∈ st.1 →
      x ∈ runTokens measure W st ts := by
  intro ts
  induction ts with
  | nil => intro st hx; exact List.mem_append_left _ hx
  | cons t ts ih =>
    intro st hx
    rw [runTokens_cons]
    exact ih _ (stepTok_fst_mem hx)

theorem cur_mem_runTokens {measure : Str → ℚ} {W : ℚ}
    (hm1 : ∀ a b : Str, measure a ≤ measure (a ++ b)) :
    ∀ (ts : List Str) (st : List Str × Str), W < measure st.2 →
      trim st.2 ≠ [] → st.2 ∈ runTokens measure W st ts := by
  intro ts
  induction ts with
  | nil => intro st _ _; exact List.mem_append_right _ (List.mem_singleton.mpr rfl)
  | cons t ts ih =>
    intro st hW htr
    rw [runTokens_cons]
    by_cases ht : t = []
    · have hstep : stepTok measure W st t = st := by
        unfold stepTok
        rw [if_pos ht]
      rw [hstep]
      exact ih st hW htr
    · have hcond : W < measure (st.2 ++ t) ∧ trim st.2 ≠ [] :=
        ⟨lt_of_lt_of_le hW (hm1 st.2 t), htr⟩
      have hstep : stepTok measure W st t = (st.1 ++ [st.2], trimStart t) := by
        unfold stepTok
        rw [if_neg ht, if_pos hcond]
      rw [hstep]
      exact mem_runTokens_of_mem_fst ts _
        (List.mem_append_right _ (List.mem_singleton.mpr rfl))

theorem runTokens_no_overflow (measure : Str → ℚ) (W : ℚ) :
    ∀ (ts : List Str) (st : List Str × Str),
      (∀ pre : Str, pre <+: (st.2 ++ ts.flatten) → measure pre ≤ W) →
      ts.foldl (stepTok measure W) st = (st.1, st.2 ++ ts.flatten) := by
  intro ts
  induction ts with
  | nil => intro st _; simp
  | cons t ts ih =>
    intro st hpre
    by_cases ht : t = []
    · have hstep : stepTok measure W st t = st := by
        unfold stepTok
        rw [if_pos ht]
      rw [List.foldl_cons, hstep, ih st (by simpa [ht] using hpre)]
      simp [ht]
    · have htent : measure (st.2 ++ t) ≤ W := by
        refine hpre (st.2 ++ t) ⟨ts.flatten, ?_⟩
        simp
      have hstep : stepTok measure W st t = (st.1, st.2 ++ t) := by
        unfold stepTok
        rw [if_neg ht, if_neg (by intro hc; exact absurd htent (not_le.mpr hc.1))]
      rw [List.foldl_cons, hstep, ih (st.1, st.2 ++ t) (by simpa using hpre)]
      simp

theorem nws_runTokens {measure : Str → ℚ} {W : ℚ} :
    ∀ (ts : List Str) (st : List Str × Str),
      nws ((runTokens measure W st ts).flatten) =
        nws st.1.flatten ++ nws st.2 ++ nws ts.flatten := by
  intro ts
  induction ts with
  | nil =>
    intro st
    simp [runTokens, nws_append, nws]
  | cons t ts ih =>
    intro st
    rw [runTokens_cons]
    unfold stepTok
    by_cases ht : t = []
    · rw [if_pos ht, ih st]
      simp [ht, nws_append]
    · rw [if_neg ht]
      split
      · rw [ih]
        simp only [List.flatten_cons, List.flatten_append, nws_append,
          List.flatten_nil, List.append_nil, nws_trimStart]
        simp [nws, List.append_assoc]
      · rw [ih]
        simp only [List.flatten_cons, nws_append]
        simp [List.append_assoc]

theorem nws_wrapSegment (measure : Str → ℚ) (W : ℚ) (seg : Str) :
    nws ((wrapSegment measure W seg).flatten) = nws seg := by
  unfold wrapSegment
  split
  · next h => subst h; rfl
  · rw [nws_runTokens]
    simp only [List.flatten_nil]
    show nws [] ++ nws [] ++ nws (tokensOf seg).flatten = nws seg
    rw [tokensOf_flatten]
    rfl

/-! ### Reassembly lemmas for the no-character-loss property -/

theorem nws_flatten (L : List Str) : nws L.flatten = (L.map nws).flatten := by
  unfold nws
  exact List.filter_flatten _ _

theorem nws_intercalate_space (ls : List Str) :
    nws (List.intercalate [' '] ls) = nws ls.flatten := by
  show nws ((ls.intersperse [' ']).flatten) = nws ls.flatten
  induction ls with
  | nil => rfl
  | cons a tl ih =>
    cases tl with
    | nil => rfl
    | cons b tl2 =>
      rw [List.intersperse_cons_cons]
      simp only [List.flatten_cons, nws_append] at ih ⊢
      rw [ih]
      have : nws [' '] = [] := by simp [nws, isWs]
      rw [this]
      simp

theorem flatten_filter_of_empties {p : Str → Bool} :
    ∀ {ls : List Str}, (∀ x ∈ ls, p x = false → x = []) →
      (ls.filter p).flatten = ls.flatten := by
  intro ls
  induction ls with
  | nil => intro _; rfl
  | cons a tl ih =>
    intro h
    rcases hp : p a with _ | _
    · have ha : a = [] := h a (List.mem_cons_self _ _) hp
      rw [List.filter_cons, hp, if_neg (by simp),
        ih fun x hx => h x (List.mem_cons_of_mem _ hx)]
      simp [ha]
    · simp [List.filter_cons, hp,
        ih fun x hx => h x (List.mem_cons_of_mem _ hx)]

theorem lenQ_mono_left (a b : Str) : lenQ a ≤ lenQ (a ++ b) := by
  simp [lenQ, List.length_append]

theorem lenQ_mono_right (a b : Str) : lenQ b ≤ lenQ (a ++ b) := by
  simp [lenQ, List.length_append]

/-- Claim C2: wrapping never drops or duplicates non-whitespace
characters: rejoining the wrapped lines with spaces yields a string
whose non-whitespace character subsequence is exactly that of the
input, for every measurer, text and metrics. -/
theorem wrapLines_preserves_content (measure : Str → ℚ) (text : Str) (m : Metrics) :
    nws (List.intercalate [' '] (wrapLines measure text m)) = nws text := by
  rw [nws_intercalate_space]
  show nws ((((splitNewlines text).map
      (wrapSegment measure (maxQ (m.width - 4) 1))).flatten.filter
      (fun line => !line.isEmpty || (splitNewlines text).contains ([] : Str))).flatten)
    = nws text
  rw [flatten_filter_of_empties (by
    intro x _ hx
    simp at hx
    exact hx.1)]
  rw [List.flatten_flatten, nws_flatten, List.map_map, List.map_map]
  have hcong : (splitNewlines text).map
      ((nws ∘ List.flatten) ∘ wrapSegment measure (maxQ (m.width - 4) 1))
      = (splitNewlines text).map nws :=
    List.map_congr_left fun seg _ => nws_wrapSegment measure _ seg
  rw [hcong, nws_splitNewlines]

/-- Claim C1 (amended): for a monotone measurer, a non-empty text with
no newline whose measured width is at most `maxWidth = max(width-4, 1)`
wraps to exactly one line equal to the input itself. -/
theorem wrapLines_single_of_fits (measure : Str → ℚ) (m : Metrics) (text : Str)
    (hmono : ∀ a b : Str, measure a ≤ measure (a ++ b))
    (hne : text ≠ []) (hnl : '\n' ∉ text)
    (hfit : measure text ≤ maxQ (m.width - 4) 1) :
    wrapLines measure text m = [text] := by
  show (((splitNewlines text).map
      (wrapSegment measure (maxQ (m.width - 4) 1))).flatten).filter
      (fun line => !line.isEmpty || (splitNewlines text).contains ([] : Str))
    = [text]
  rw [splitNewlines_of_no_nl hnl]
  have hseg : wrapSegment measure (maxQ (m.width - 4) 1) text = [text] := by
    unfold wrapSegment
    rw [if_neg hne]
    have hfold := runTokens_no_overflow measure
      (maxQ (m.width - 4) 1) (tokensOf text) ([], [])
      (by
        intro pre hpre
        rw [List.nil_append, tokensOf_flatten] at hpre
        obtain ⟨suf, hsuf⟩ := hpre
        calc measure pre ≤ measure (pre ++ suf) := hmono _ _
          _ = measure text := by rw [hsuf]
          _ ≤ maxQ (m.width - 4) 1 := hfit)
    unfold runTokens
    rw [hfold]
    simp [tokensOf_flatten]
  rw [List.map_singleton, hseg]
  simp [List.filter_cons, hne]

/-- Claim C3 (amended): each newline-separated segment is wrapped by
the same per-segment procedure, an empty segment contributing exactly
the single empty line `[""]` at its position; however the final filter
is global: when the input has no empty segment all empty lines are
removed, and when it has one, every empty line produced by wrapping is
retained. -/
theorem wrapLines_segments (measure : Str → ℚ) (text : Str) (m : Metrics) (W : ℚ) :
    wrapSegment measure W [] = [[]] ∧
    wrapLines measure text m =
      (if ([] : Str) ∈ splitNewlines text
       then ((splitNewlines text).map
         (wrapSegment measure (maxQ (m.width - 4) 1))).flatten
       else (((splitNewlines text).map
         (wrapSegment measure (maxQ (m.width - 4) 1))).flatten).filter
           (fun line => !line.isEmpty)) := by
  constructor
  · rfl
  · show (((splitNewlines text).map
        (wrapSegment measure (maxQ (m.width - 4) 1))).flatten).filter
        (fun line => !line.isEmpty || (splitNewlines text).contains ([] : Str)) = _
    by_cases h : ([] : Str) ∈ splitNewlines text
    · rw [if_pos h]
      have hc : (splitNewlines text).contains ([] : Str) = true :=
        List.elem_iff.mpr h
      exact List.filter_eq_self.mpr fun a _ => by rw [hc]; simp
    · rw [if_neg h]
      refine List.filter_congr fun x _ => ?_
      have hc : (splitNewlines text).contains ([] : Str) = false := by
        simp [List.elem_eq_mem, h]
      rw [hc, Bool.or_false]

/-! ### The wide-token lemma -/

theorem wide_token_own_line_fold {measure : Str → ℚ} {W : ℚ} {t : Str}
    (hm1 : ∀ a b : Str, measure a ≤ measure (a ++ b))
    (hm2 : ∀ a b : Str, measure b ≤ measure (a ++ b))
    (hws : ∀ c ∈ t, isWs c = false) (hne : t ≠ []) (hwide : W < measure t) :
    ∀ (ts : List Str) (st : List Str × Str), t ∈ ts →
      ∃ w : Str, (∀ c ∈ w, isWs c = true) ∧
        w ++ t ∈ runTokens measure W st ts := by
  intro ts
  induction ts with
  | nil => intro st h; exact absurd h (List.not_mem_nil t)
  | cons t0 ts ih =>
    intro st hmem
    rw [runTokens_cons]
    rcases List.mem_cons.mp hmem with heq | htail
    · subst heq
      by_cases htr : trim st.2 = []
      · have hcond : ¬ (W < measure (st.2 ++ t) ∧ trim st.2 ≠ []) := by
          intro hc
          exact hc.2 htr
        have hstep : stepTok measure W st t = (st.1, st.2 ++ t) := by
          unfold stepTok
          rw [if_neg hne, if_neg hcond]
        rw [hstep]
        obtain ⟨c, hc⟩ := List.exists_mem_of_ne_nil t hne
        refine ⟨st.2, fun d hd => trim_eq_nil htr d hd, ?_⟩
        exact cur_mem_runTokens hm1 ts _
          (lt_of_lt_of_le hwide (hm2 st.2 t))
          (trim_ne_nil (List.mem_append_right st.2 hc) (hws c hc))
      · have hcond : W < measure (st.2 ++ t) ∧ trim st.2 ≠ [] :=
          ⟨lt_of_lt_of_le hwide (hm2 st.2 t), htr⟩
        have hstep : stepTok measure W st t = (st.1 ++ [st.2], trimStart t) := by
          unfold stepTok
          rw [if_neg hne, if_pos hcond]
        rw [hstep, trimStart_of_noWs hws]
        refine ⟨[], by intro c hc; exact absurd hc (List.not_mem_nil c), ?_⟩
        rw [List.nil_append]
        refine cur_mem_runTokens hm1 ts _ hwide ?_
        rw [trim_of_noWs hws]
        exact hne
    · exact ih _ htail

/-- Claim C5 (amended): tentative lines are measured against
`maxWidth = max(width - 4, 1)`, and for a monotone measurer a
whitespace-free token wider than `maxWidth` is never split: it reaches
the output intact as its own line, at most prefixed by whitespace
carried over from the start of its segment. -/
theorem wrapLines_wide_token (measure : Str → ℚ) (m : Metrics)
    (text seg t : Str)
    (hm1 : ∀ a b : Str, measure a ≤ measure (a ++ b))
    (hm2 : ∀ a b : Str, measure b ≤ measure (a ++ b))
    (hseg : seg ∈ splitNewlines text) (ht : t ∈ tokensOf seg)
    (hws : ∀ c ∈ t, isWs c = false) (hne : t ≠ [])
    (hwide : maxQ (m.width - 4) 1 < measure t) :
    ∃ w : Str, (∀ c ∈ w, isWs c = true) ∧ w ++ t ∈ wrapLines measure text m := by
  obtain ⟨w, hw, hmem⟩ :=
    wide_token_own_line_fold hm1 hm2 hws hne hwide (tokensOf seg) ([], []) ht
  have hsegne : seg ≠ [] := by
    intro h0
    rw [h0, tokensOf_nil] at ht
    exact List.not_mem_nil t ht
  have hmem2 : w ++ t ∈ wrapSegment measure (maxQ (m.width - 4) 1) seg := by
    unfold wrapSegment
    rw [if_neg hsegne]
    exact hmem
  have hmem3 : w ++ t ∈ ((splitNewlines text).map
      (wrapSegment measure (maxQ (m.width - 4) 1))).flatten :=
    List.mem_flatten.mpr ⟨_, List.mem_map_of_mem _ hseg, hmem2⟩
  refine ⟨w, hw, ?_⟩
  show w ++ t ∈ (((splitNewlines text).map
      (wrapSegment measure (maxQ (m.width - 4) 1))).flatten).filter
      (fun line => !line.isEmpty || (splitNewlines text).contains ([] : Str))
  refine List.mem_filter.mpr ⟨hmem3, ?_⟩
  have : w ++ t ≠ [] := fun h0 => hne (List.append_eq_nil.mp h0).2
  simp [this]

/-- Counterexample to claim C1 as stated: with a character-count
measurer, the text `"ab cd"` is non-empty, has no newline and measures
5, strictly narrower than the container width 6, yet `wrapLines` splits
it into two lines (`maxWidth` is `6 - 4 = 2`), so the result is neither
a single line nor the trimmed input. -/
theorem wrapLines_narrower_cex :
    "ab cd".toList ≠ ([] : Str) ∧
    '\n' ∉ "ab cd".toList ∧
    lenQ "ab cd".toList < metricsW6.width ∧
    wrapLines lenQ "ab cd".toList metricsW6 = ["ab".toList, "cd".toList] ∧
    (wrapLines lenQ "ab cd".toList metricsW6).length ≠ 1 ∧
    wrapLines lenQ "ab cd".toList metricsW6 ≠ [trim "ab cd".toList] := by
  decide

/-- Witness instance of the amended C1 theorem at a concrete input. -/
theorem wrapLines_single_of_fits_witness :
    wrapLines lenQ "ab".toList metricsW300 = ["ab".toList] :=
  wrapLines_single_of_fits lenQ metricsW300 "ab".toList lenQ_mono_left
    (by decide) (by decide) (by decide)

/-- Counterexample to claim C3 as stated: wrapping `"a \n"` against a
width-5 container (so `maxWidth = 1`) is not the concatenation of the
wrapped segments taken independently, and the output has two empty
lines while the input has a single blank segment: the blank input line
lets the wrap-generated empty line of the segment `"a "` survive the
final filter. -/
theorem wrapLines_segments_cex :
    wrapLines lenQ "a \n".toList metricsW5
        = [['a'], ([] : Str), ([] : Str)] ∧
    (splitNewlines "a \n".toList).countP (fun l => l.isEmpty) = 1 ∧
    (wrapLines lenQ "a \n".toList metricsW5).countP (fun l => l.isEmpty) = 2 ∧
    wrapLines lenQ "a \n".toList metricsW5
      ≠ ((splitNewlines "a \n".toList).map
          (fun seg => wrapLines lenQ seg metricsW5)).flatten := by
  decide

/-- Counterexample to claim C5 as stated: with a character-count
measurer and a width-9 container (`maxWidth = 5`), the token
`"LONGWORD"` of `" LONGWORD xx"` measures 8 and overflows, but no
output line equals the token itself: the leading whitespace of the
segment stays attached to its line. -/
theorem wrapLines_wide_token_cex :
    "LONGWORD".toList ∈ tokensOf " LONGWORD xx".toList ∧
    maxQ (metricsW9.width - 4) 1 < lenQ "LONGWORD".toList ∧
    wrapLines lenQ " LONGWORD xx".toList metricsW9
      = [" LONGWORD".toList, "xx".toList] ∧
    "LONGWORD".toList ∉ wrapLines lenQ " LONGWORD xx".toList metricsW9 := by
  decide

/-- Witness instance of the amended C5 theorem at a concrete input. -/
theorem wrapLines_wide_token_witness :
    ∃ w : Str, (∀ c ∈ w, isWs c = true) ∧
      w ++ "LONGWORD".toList ∈ wrapLines lenQ " LONGWORD xx".toList metricsW9 :=
  wrapLines_wide_token lenQ metricsW9 " LONGWORD xx".toList
    " LONGWORD xx".toList "LONGWORD".toList lenQ_mono_left lenQ_mono_right
    (by decide) (by decide) (by decide) (by decide) (by decide)

/-! ### Escaping lemmas -/

theorem replaceChar_cons (c : Char) (rep : Str) (d : Char) (l : Str) :
    replaceChar c rep (d :: l)
      = (if d = c then rep else [d]) ++ replaceChar c rep l := by
  simp [replaceChar]

theorem replaceChar_append (c : Char) (rep : Str) (a b : Str) :
    replaceChar c rep (a ++ b) = replaceChar c rep a ++ replaceChar c rep b := by
  simp [replaceChar]

theorem escapeXml_cons (c : Char) (l : Str) :
    escapeXml (c :: l) = escChar c ++ escapeXml l := by
  show replaceChar (Char.ofNat 39) "&#39;".toList
      (replaceChar (Char.ofNat 34) "&quot;".toList
        (replaceChar '>' "&gt;".toList
          (replaceChar '<' "&lt;".toList
            (replaceChar '&' "&amp;".toList (c :: l))))) = _
  rw [replaceChar_cons, replaceChar_append, replaceChar_append,
    replaceChar_append, replaceChar_append]
  congr 1
  by_cases h1 : c = '&'
  · subst h1; decide
  · by_cases h2 : c = '<'
    · subst h2; decide
    · by_cases h3 : c = '>'
      · subst h3; decide
      · by_cases h4 : c = Char.ofNat 34
        · subst h4; decide
        · by_cases h5 : c = Char.ofNat 39
          · subst h5; decide
          · simp [replaceChar, escChar, h1, h2, h3, h4, h5]

theorem escapeXml_eq_flatMap (l : Str) :
    escapeXml l = (l.map escChar).flatten := by
  induction l with
  | nil => rfl
  | cons c t ih =>
    rw [escapeXml_cons, ih]
    simp

theorem escChar_safe (d c : Char) (hc : c ∈ escChar d) :
    c ≠ '<' ∧ c ≠ '>' ∧ c ≠ Char.ofNat 34 ∧ c ≠ Char.ofNat 39 := by
  by_cases h1 : d = '&'
  · subst h1
    simp only [escChar, if_pos rfl] at hc
    exact (by decide :
      ∀ x ∈ "&amp;".toList,
        x ≠ '<' ∧ x ≠ '>' ∧ x ≠ Char.ofNat 34 ∧ x ≠ Char.ofNat 39) c hc
  · by_cases h2 : d = '<'
    · subst h2
      simp [escChar] at hc
      rcases hc with rfl | rfl | rfl | rfl <;> decide
    · by_cases h3 : d = '>'
      · subst h3
        simp [escChar] at hc
        rcases hc with rfl | rfl | rfl | rfl <;> decide
      · by_cases h4 : d = Char.ofNat 34
        · subst h4
          simp [escChar] at hc
          rcases hc with rfl | rfl | rfl | rfl | rfl | rfl <;> decide
        · by_cases h5 : d = Char.ofNat 39
          · subst h5
            simp [escChar] at hc
            rcases hc with rfl | rfl | rfl | rfl | rfl <;> decide
          · simp [escChar, h1, h2, h3, h4, h5] at hc
            subst hc
            exact ⟨h2, h3, h4, h5⟩

theorem ampSafe_nil : ampSafe [] := by
  intro i h
  simp at h

theorem entity_no_amp_tail :
    ∀ e ∈ xmlEntities, ∀ j (h : j < e.length), 0 < j → e.get ⟨j, h⟩ ≠ '&' := by
  decide

theorem ampSafe_append_block (b t : Str)
    (hb : b ∈ xmlEntities ∨ ∃ c, b = [c] ∧ c ≠ '&') (ht : ampSafe t) :
    ampSafe (b ++ t) := by
  intro i h hamp
  by_cases hi : i < b.length
  · rcases hb with hb | ⟨c, rfl, hc⟩
    · rcases Nat.eq_zero_or_pos i with rfl | hpos
      · refine ⟨b, hb, ?_⟩
        simp
      · exfalso
        have hget : (b ++ t).get ⟨i, h⟩ = b.get ⟨i, hi⟩ := by
          simp [List.getElem_append_left hi]
        exact entity_no_amp_tail b hb i hi hpos (by rw [← hget]; exact hamp)
    · have hi0 : i = 0 := by
        simp at hi
        exact hi
      subst hi0
      exfalso
      exact hc hamp
  · push_neg at hi
    have hlen : i - b.length < t.length := by
      have := h
      rw [List.length_append] at this
      omega
    have hget : t.get ⟨i - b.length, hlen⟩ = '&' := by
      rw [← hamp]
      simp only [List.get_eq_getElem]
      exact (List.getElem_append_right hi).symm
    have hdrop : (b ++ t).drop i = t.drop (i - b.length) := by
      rw [List.drop_append_eq_append_drop, List.drop_eq_nil_of_le hi,
        List.nil_append]
    obtain ⟨e, he, hpre⟩ := ht (i - b.length) hlen hget
    exact ⟨e, he, by rw [hdrop]; exact hpre⟩

theorem escChar_block (c : Char) :
    escChar c ∈ xmlEntities ∨ ∃ d, escChar c = [d] ∧ d ≠ '&' := by
  by_cases h1 : c = '&'
  · subst h1; left; decide
  · by_cases h2 : c = '<'
    · subst h2; left; decide
    · by_cases h3 : c = '>'
      · subst h3; left; decide
      · by_cases h4 : c = Char.ofNat 34
        · subst h4; left; decide
        · by_cases h5 : c = Char.ofNat 39
          · subst h5; left; decide
          · right
            exact ⟨c, by simp [escChar, h1, h2, h3, h4, h5], h1⟩

theorem ampSafe_escapeXml (l : Str) : ampSafe (escapeXml l) := by
  rw [escapeXml_eq_flatMap]
  induction l with
  | nil => exact ampSafe_nil
  | cons c t ih =>
    simp only [List.map_cons, List.flatten_cons]
    exact ampSafe_append_block _ _ (escChar_block c) ih

/-! ### Mask geometry lemmas -/

theorem le_maxQ_left (a b : ℚ) : a ≤ maxQ a b := by
  unfold maxQ
  split
  · assumption
  · exact le_refl a

theorem le_maxQ_right (a b : ℚ) : b ≤ maxQ a b := by
  unfold maxQ
  split
  · exact le_refl b
  · exact le_of_not_le (by assumption)

/-- Claim C6: with no truthy explicit height, the mask image height is
at least one resolved line height and at least the stacked height of
all lines; with zero lines it is exactly one line height. -/
theorem buildMask_height_bounds (lines : List Str) (m : Metrics)
    (hh : m.height = 0) (hl : 0 < resolvedLineHeight m) :
    resolvedLineHeight m ≤ (buildMask lines m).height ∧
    resolvedLineHeight m * lines.length ≤ (buildMask lines m).height ∧
    (lines = [] → (buildMask lines m).height = resolvedLineHeight m) := by
  have hheight : (buildMask lines m).height
      = maxQ (resolvedLineHeight m * lines.length) (resolvedLineHeight m) := by
    show (if m.height = 0
      then maxQ (resolvedLineHeight m * lines.length) (resolvedLineHeight m)
      else m.height) = _
    rw [if_pos hh]
  refine ⟨?_, ?_, ?_⟩
  · rw [hheight]
    exact le_maxQ_right _ _
  · rw [hheight]
    exact le_maxQ_left _ _
  · intro h0
    subst h0
    rw [hheight]
    simp [maxQ, hl.le]

/-- Witness instance of the C6 theorem at concrete metrics. -/
theorem buildMask_height_bounds_witness :
    resolvedLineHeight metricsW5 ≤ (buildMask [] metricsW5).height ∧
    (buildMask [] metricsW5).height = resolvedLineHeight metricsW5 :=
  ⟨(buildMask_height_bounds [] metricsW5 (by decide) (by decide)).1,
   (buildMask_height_bounds [] metricsW5 (by decide) (by decide)).2.2 rfl⟩

/-- Claim C9: the mask image has width `max(width, 1)`, its first
baseline is at `max((height - lineHeight*(lineCount-1))/2,
lineHeight*0.6)` (hence never under sixty percent of a line height),
and the text run of line `i` sits at `x = width/2`,
`y = startY + i*lineHeight` with the escaped line content. -/
theorem buildMask_layout (lines : List Str) (m : Metrics) :
    (buildMask lines m).width = maxQ m.width 1 ∧
    (buildMask lines m).startY
      = maxQ (((buildMask lines m).height
          - resolvedLineHeight m * ((lines.length : ℚ) - 1)) / 2)
        (resolvedLineHeight m * (3 / 5)) ∧
    resolvedLineHeight m * (3 / 5) ≤ (buildMask lines m).startY ∧
    ∀ i : ℕ, (buildMask lines m).tspans[i]?
      = (lines[i]?).map (fun line =>
          { x := maxQ m.width 1 / 2,
            y := (buildMask lines m).startY + (i : ℚ) * resolvedLineHeight m,
            content := escapeXml line }) := by
  refine ⟨rfl, rfl, le_maxQ_right _ _, ?_⟩
  intro i
  show (lines.enum.map _)[i]? = _
  rw [List.getElem?_map]
  show ((List.enumFrom 0 lines)[i]?.map _) = _
  rw [List.getElem?_enumFrom]
  rw [Option.map_map]
  cases h : lines[i]? with
  | none => rfl
  | some line =>
    simp
    rfl

/-- Claim C8: the escaped line content embedded in the mask image is
the character-wise entity map of the line: each of the five characters
(ampersand, angle brackets, double and single quote) becomes its
entity, the result contains no raw markup-significant character other
than entity-starting ampersands, and every ampersand starts one of the
five entities. -/
theorem escapeXml_escapes (l : Str) (lines : List Str) (m : Metrics) :
    escapeXml l = (l.map escChar).flatten ∧
    (∀ c ∈ escapeXml l,
      c ≠ '<' ∧ c ≠ '>' ∧ c ≠ Char.ofNat 34 ∧ c ≠ Char.ofNat 39) ∧
    ampSafe (escapeXml l) ∧
    ((buildMask lines m).tspans).map Tspan.content = lines.map escapeXml := by
  refine ⟨escapeXml_eq_flatMap l, ?_, ampSafe_escapeXml l, ?_⟩
  · intro c hc
    rw [escapeXml_eq_flatMap] at hc
    obtain ⟨b, hb, hcb⟩ := List.mem_flatten.mp hc
    obtain ⟨d, _, rfl⟩ := List.mem_map.mp hb
    exact escChar_safe d c hcb
  · have h1 : ((buildMask lines m).tspans).map Tspan.content
        = lines.enum.map (fun p => escapeXml p.2) := by
      show (lines.enum.map _).map Tspan.content = _
      rw [List.map_map]
      exact List.map_congr_left fun p _ => rfl
    rw [h1]
    have h2 : lines.enum.map (fun p : ℕ × Str => escapeXml p.2)
        = (lines.enum.map Prod.snd).map escapeXml := by
      rw [List.map_map]
      exact List.map_congr_left fun p _ => rfl
    rw [h2]
    show ((List.enumFrom 0 lines).map Prod.snd).map escapeXml = _
    rw [List.enumFrom_map_snd]

/-- Witness instance of the C8 theorem at a concrete string. -/
theorem escapeXml_escapes_witness :
    ('a' ≠ '<' ∧ 'a' ≠ '>' ∧ 'a' ≠ Char.ofNat 34 ∧ 'a' ≠ Char.ofNat 39) ∧
    (∃ e ∈ xmlEntities, e <+: (escapeXml "a&b".toList).drop 1) ∧
    escapeXml "a&b".toList = (("a&b".toList).map escChar).flatten :=
  ⟨(escapeXml_escapes "a&b".toList [] metricsW5).2.1 'a' (by decide),
   (escapeXml_escapes "a&b".toList [] metricsW5).2.2.1 1 (by decide) (by decide),
   (escapeXml_escapes "a&b".toList [] metricsW5).1⟩

/-! ### Normalization and orchestration -/

/-- Claim C10: `normalizeLines` only emits trimmed non-empty lines and
is idempotent: renormalizing its own output as an explicit list gives
the same list back. -/
theorem normalizeLines_idem (src : Option TextSource) :
    (∀ l ∈ normalizeLines src, trim l = l ∧ l ≠ []) ∧
    normalizeLines (some (.list (normalizeLines src))) = normalizeLines src := by
  have key : ∀ (L : List Str) (l : Str),
      l ∈ (L.map trim).filter (fun x => !x.isEmpty) → trim l = l ∧ l ≠ [] := by
    intro L l hmem
    obtain ⟨hmap, hne⟩ := List.mem_filter.mp hmem
    obtain ⟨x, _, rfl⟩ := List.mem_map.mp hmap
    refine ⟨trim_trim x, ?_⟩
    simpa using hne
  have hpart : ∀ l ∈ normalizeLines src, trim l = l ∧ l ≠ [] := by
    intro l hl
    cases src with
    | none => simp [normalizeLines] at hl
    | some ts =>
      cases ts with
      | list L => exact key L l hl
      | str s =>
        by_cases hs : s = []
        · simp [normalizeLines, hs] at hl
        · rw [show normalizeLines (some (.str s))
              = ((splitDelims s).map trim).filter (fun x => !x.isEmpty) from by
            simp [normalizeLines, hs]] at hl
          exact key _ l hl
  refine ⟨hpart, ?_⟩
  show ((normalizeLines src).map trim).filter (fun x => !x.isEmpty)
    = normalizeLines src
  have hmap : (normalizeLines src).map trim = normalizeLines src := by
    have heq : (normalizeLines src).map trim = (normalizeLines src).map id :=
      List.map_congr_left fun l hl => (hpart l hl).1
    rwa [List.map_id] at heq
  rw [hmap]
  exact List.filter_eq_self.mpr fun a ha => by simpa using (hpart a ha).2

/-- Witness instance of the C10 theorem at a concrete source. -/
theorem normalizeLines_idem_witness :
    (trim ['a'] = ['a'] ∧ ['a'] ≠ []) ∧
    normalizeLines (some (.list (normalizeLines (some (.str " a | b ".toList)))))
      = normalizeLines (some (.str " a | b ".toList)) :=
  ⟨(normalizeLines_idem (some (.str " a | b ".toList))).1 ['a'] (by decide),
   (normalizeLines_idem (some (.str " a | b ".toList))).2⟩

/-- Claim C7: explicit `textLines` input is normalized by splitting at
newlines and pipes, trimming and dropping empties; when it yields any
line, wrapping is skipped entirely (the result does not depend on the
measurer), and for `["Line one", "Line two"]` the content element
receives exactly these lines newline-joined and the mask is built from
exactly these lines. -/
theorem apply_textLines :
    (∀ s : Str, normalizeLines (some (.str s))
      = ((splitDelims s).map trim).filter (fun l => !l.isEmpty)) ∧
    (∀ L : List Str, normalizeLines (some (.list L))
      = (L.map trim).filter (fun l => !l.isEmpty)) ∧
    (∀ (mu1 mu2 : Str → ℚ) (mf : Elem → Metrics) (opts : Options) (dom : Dom),
      normalizeLines opts.textLines ≠ [] →
      apply ⟨mu1, mf⟩ opts dom = apply ⟨mu2, mf⟩ opts dom) ∧
    (apply envLen optsTwoLines domDefault).2 = [] ∧
    lookupElem (apply envLen optsTwoLines domDefault).1 defaultContentId
      = some (applyMaskStyle
          { blankElem with textContent := "Line one\nLine two".toList }
          (buildMask ["Line one".toList, "Line two".toList]
            (maskHeightFix metricsW300 2))) := by
  refine ⟨?_, ?_, ?_, ?_, ?_⟩
  · intro s
    by_cases hs : s = []
    · subst hs
      decide
    · simp [normalizeLines, hs]
  · intro L
    rfl
  · intro mu1 mu2 mf opts dom hne
    have hempty : (normalizeLines opts.textLines).isEmpty = false := by
      rw [List.isEmpty_eq_false]
      exact hne
    rcases h1 : lookupElem dom (resolveId opts.containerId defaultContainerId)
      with _ | c1 <;>
      rcases h2 : lookupElem dom (resolveId opts.contentId defaultContentId)
        with _ | c2 <;>
      simp [apply, h1, h2, hempty]
  · decide
  · decide

/-- Witness instance of the C7 theorem: the result of the two-line
scenario is independent of the text measurer. -/
theorem apply_textLines_witness :
    apply envLen optsTwoLines domDefault
      = apply envZero optsTwoLines domDefault :=
  apply_textLines.2.2.1 lenQ (fun _ => 0) (fun _ => metricsW300)
    optsTwoLines domDefault (by decide)

/-- Claim C4: `apply` is a total function of its inputs (the embedding
never raises), and on every failure path — missing container or
content element, or no usable source text — it returns the document
unchanged with only the diagnostic warning. -/
theorem apply_noop (env : Env) (opts : Options) (dom : Dom) :
    ((lookupElem dom (resolveId opts.containerId defaultContainerId) = none ∨
      lookupElem dom (resolveId opts.contentId defaultContentId) = none) →
      apply env opts dom = (dom, [warnNotFound])) ∧
    (∀ container content,
      lookupElem dom (resolveId opts.containerId defaultContainerId)
        = some container →
      lookupElem dom (resolveId opts.contentId defaultContentId)
        = some content →
      normalizeLines opts.textLines = [] →
      trim (sourceTextFor container content) = [] →
      apply env opts dom = (dom, [warnNoText])) := by
  constructor
  · intro h
    rcases h1 : lookupElem dom (resolveId opts.containerId defaultContainerId)
      with _ | c1
    · simp [apply, h1]
    · rcases h2 : lookupElem dom (resolveId opts.contentId defaultContentId)
        with _ | c2
      · simp [apply, h1, h2]
      · rcases h with h | h
        · rw [h1] at h
          exact absurd h (by simp)
        · rw [h2] at h
          exact absurd h (by simp)
  · intro container content h1 h2 hnorm htrim
    simp [apply, h1, h2, hnorm, htrim]

/-- Witness instance of the C4 theorem on the empty document. -/
theorem apply_noop_witness :
    apply envLen {} ([] : Dom) = (([] : Dom), [warnNotFound]) :=
  (apply_noop envLen {} ([] : Dom)).1 (Or.inl rfl)

end

end Bright
